import Mathlib

/-!
# find-duplicates: perceptual hashing and duplicate matching

A shallow embedding of `cmd/find-duplicates/main.go`.

Machine integers are natural numbers: a `uint64` is a `Nat` below `2 ^ 64`,
and results that the source narrows to 64 bits are reduced `% 2 ^ 64`
explicitly.  The flags `-threads` and `-similarity` are Go `int`s and are
integers here.
-/

namespace FindDuplicates

/-! ## Flags (main.go, lines 27-33) -/

/-- The four command line flags. -/
structure Flags where
  NumThreads : Int
  Similarity : Int
  Verbose : Bool
  PrintHTML : Bool

/-! ## DifferenceHash (main.go, lines 35-68) -/

/-- What `color.Color.RGBA()` returns: four samples, each in `[0, 0xffff]`. -/
structure Color where
  r : Nat
  g : Nat
  b : Nat
  a : Nat
deriving DecidableEq, Repr

/-- An `image.Image` whose bounds start at the origin: `Dx` and `Dy` are
`Bounds().Dx()` and `Bounds().Dy()`, and `At x y` is the colour at `(x, y)`. -/
structure Image where
  Dx : Nat
  Dy : Nat
  At : Nat → Nat → Color

/-- The luminance `color.GrayModel` assigns to a colour (Go standard library,
`image/color`): `(19595*r + 38470*g + 7471*b + 1<<15) >> 24`, an 8 bit value. -/
def grayY (c : Color) : Nat :=
  (19595 * c.r + 38470 * c.g + 7471 * c.b + 2 ^ 15) >>> 24

/-- The colour of a `color.Gray` pixel of luminance `y`: `RGBA()` returns
`y | y << 8` in the three colour samples and `0xffff` as alpha. -/
def grayColor (y : Nat) : Color :=
  ⟨y ||| (y <<< 8), y ||| (y <<< 8), y ||| (y <<< 8), 0xffff⟩

/-- Lines 40-41: `ogray := image.NewGray(img.Bounds())` followed by
`draw.Draw(ogray, img.Bounds(), img, image.ZP, draw.Src)`: every pixel is
converted through `color.GrayModel`. -/
def drawGray (img : Image) : Image :=
  ⟨img.Dx, img.Dy, fun x y => grayColor (grayY (img.At x y))⟩

/-- The loop variables of `DifferenceHash`: `hash uint64`, `c uint` and
`last uint32`. -/
structure ScanState where
  hash : Nat
  c : Nat
  last : Nat
deriving DecidableEq, Repr

/-- The sample the loop reads at `(x, y)`:
`clr, _, _, _ := gray.At(x, y).RGBA()`. -/
def clrAt (gray : Image) (x y : Nat) : Nat :=
  (gray.At x y).r

/-- One pass of the inner loop body (lines 52-63) at column `x` of row `y`.
`1 << c` is a `uint64` shift, so it is `0` once `c` reaches 64. -/
def scanPixel (gray : Image) (y : Nat) (s : ScanState) (x : Nat) : ScanState :=
  let clr := clrAt gray x y
  if x > 0 then
    if s.last < clr then
      ⟨s.hash ||| ((1 <<< s.c) % 2 ^ 64), s.c + 1, clr⟩
    else
      ⟨s.hash, s.c + 1, clr⟩
  else
    ⟨s.hash, s.c, clr⟩

/-- The inner loop `for x := 0; x < w; x++`. -/
def scanRow (gray : Image) (s : ScanState) (y : Nat) : ScanState :=
  (List.range gray.Dx).foldl (scanPixel gray y) s

/-- The outer loop `for y := 0; y < h; y++`, from `hash = 0`, `c = 0`,
`last = 0`. -/
def scan (gray : Image) : ScanState :=
  (List.range gray.Dy).foldl (scanRow gray) ⟨0, 0, 0⟩

/-- The function `DifferenceHash(img image.Image) uint64`.  `resize` stands for
`resize.Resize(_, _, _, resize.NearestNeighbor)` of the library
`github.com/nfnt/resize`, which is not part of the repository.  As in the
source, the grayscale copy `ogray` is built and the image handed to `resize`
is `img`. -/
def DifferenceHash (resize : Nat → Nat → Image → Image) (img : Image) : Nat :=
  let _ogray := drawGray img
  let gray := resize 9 8 img
  (scan gray).hash

/-! ## ImageHash (main.go, lines 70-74) -/

/-- The type `ImageHash`: an image hash and its corresponding location. -/
structure ImageHash where
  Path : String
  Hash : Nat
deriving DecidableEq, Repr

/-! ## HammingDistance (main.go, lines 157-165) -/

/-- The function `HammingDistance(a, b uint64) int`: `n := a ^ b`, then the loop
`for i := 0; i < 64; i++ { diff += int((n >> uint(i)) & 1) }`.
The result never exceeds 64, so the conversion to `int` loses nothing. -/
def HammingDistance (a b : Nat) : Nat :=
  let n := a ^^^ b
  (List.range 64).foldl (fun diff i => diff + ((n >>> i) &&& 1)) 0

/-! ## The matching loop of main (main.go, lines 234-253) -/

/-- The loop `for t := 0; t < len(duplicates); t += 2` (lines 241-248): does
`duplicates` already hold the pair `(v, y)` or `(y, v)`, compared by path?
`true` stands for `continue skip`.  The slice only ever grows by two entries
at a time, so `duplicates[t+1]` is always in range. -/
def alreadyListed (v y : ImageHash) : List ImageHash → Bool
  | a :: b :: rest =>
    if (v.Path = a.Path ∧ y.Path = b.Path) ∨ (v.Path = b.Path ∧ y.Path = a.Path) then
      true
    else
      alreadyListed v y rest
  | _ => false

/-- The body of the loop `for j, y := range images` (lines 238-251) for the
outer entry `(i, v)`. -/
def matchStep (Similarity : Int) (i : Nat) (v : ImageHash)
    (duplicates : List ImageHash) (jy : Nat × ImageHash) : List ImageHash :=
  if i = jy.1 then
    duplicates
  else if alreadyListed v jy.2 duplicates then
    duplicates
  else if (HammingDistance v.Hash jy.2.Hash : Int) ≤ Similarity then
    duplicates ++ [v, jy.2]
  else
    duplicates

/-- The inner loop `for j, y := range images` for the outer entry `(i, v)`. -/
def matchInner (Similarity : Int) (images : List ImageHash)
    (duplicates : List ImageHash) (iv : Nat × ImageHash) : List ImageHash :=
  images.enum.foldl (matchStep Similarity iv.1 iv.2) duplicates

/-- The matching loop: `duplicates := []ImageHash{}` and the two nested loops
over `images`.  The result is the flat slice, two entries per pair. -/
def matchLoop (Similarity : Int) (images : List ImageHash) : List ImageHash :=
  images.enum.foldl (matchInner Similarity images) []

/-- The pairs a flat `duplicates` slice holds: entries `2n` and `2n+1` form
the `n`-th pair. -/
def pairsOf : List ImageHash → List (ImageHash × ImageHash)
  | a :: b :: rest => (a, b) :: pairsOf rest
  | _ => []

/-- Two pairs represent the same unordered pair of paths. -/
def samePaths (p q : ImageHash × ImageHash) : Prop :=
  (p.1.Path = q.1.Path ∧ p.2.Path = q.2.Path) ∨ (p.1.Path = q.2.Path ∧ p.2.Path = q.1.Path)

instance (p q : ImageHash × ImageHash) : Decidable (samePaths p q) := by
  unfold samePaths; infer_instance

/-! ## Plain-text output (main.go, lines 268-281) -/

/-- The loop `for i := 0; i < len(duplicates)/2; i += 2` of the plain-text
branch, started at index `i`; every pass prints one line
`absA \t absB \n`.  `abs` stands for `filepath.Abs` (when it fails the source
logs the error and prints the value it returned).  `fuel` bounds the number
of passes; `len(duplicates)` passes are always enough. -/
def printLoop (abs : String → String) (duplicates : List ImageHash) :
    Nat → Nat → List String
  | 0, _ => []
  | fuel + 1, i =>
    if i < duplicates.length / 2 then
      (abs (duplicates.getD i ⟨"", 0⟩).Path ++ "\t"
          ++ abs (duplicates.getD (i + 1) ⟨"", 0⟩).Path ++ "\n")
        :: printLoop abs duplicates fuel (i + 2)
    else
      []

/-- The lines the plain-text branch writes to standard output. -/
def printPlain (abs : String → String) (duplicates : List ImageHash) : List String :=
  printLoop abs duplicates duplicates.length 0

/-- The line that shows the `n`-th pair of `duplicates`. -/
def pairLine (abs : String → String) (p : ImageHash × ImageHash) : String :=
  abs p.1.Path ++ "\t" ++ abs p.2.Path ++ "\n"

/-! ## The run of main as a transition system (main.go, lines 167-253)

The goroutines of `main` interleave, so the run is a step function on an
explicit state, driven by a schedule: a list of actions, each the next
statement of the main goroutine or of one fingerprinting goroutine. -/

/-- What the run takes from outside the program: `LoadImage` (file system
and image decoders) and the resampling library. -/
structure Env where
  LoadImage : String → Option Image
  resize : Nat → Nat → Image → Image

/-- Where a fingerprinting goroutine (lines 199-224) stands. -/
inductive TaskPc where
  /-- started by the `go` statement; `LoadImage` and the append are ahead -/
  | working
  /-- the result is appended (or the failure logged) and the mutex released;
  the deferred function of lines 200-203 is ahead -/
  | appended
  /-- the call `wg.Done()` has run; the send `tokens <- struct{}{}` is ahead -/
  | signalled
  /-- the token is back in the channel and the goroutine has returned -/
  | ended
deriving DecidableEq, Repr

/-- One fingerprinting goroutine: the file it was started for and where it
stands. -/
structure Task where
  path : String
  pc : TaskPc
deriving DecidableEq, Repr

/-- Where the main goroutine stands. -/
inductive Phase where
  /-- inside the second `Walk` (lines 193-227) -/
  | walking
  /-- at `wg.Wait()` (line 232) -/
  | waiting
  /-- past the matching loop (lines 234-253) -/
  | matched
deriving DecidableEq, Repr

/-- The state of a run. -/
structure MainState where
  /-- number of tokens in the channel `tokens` -/
  tokens : Nat
  /-- files the second `Walk` has not reached yet, in walk order -/
  pending : List String
  /-- the file for which main has received a token (line 198) and not yet
  executed the `go` statement (line 199) -/
  holding : Option String
  /-- the goroutines started so far, in start order -/
  tasks : List Task
  /-- the counter of the `sync.WaitGroup` -/
  wg : Int
  /-- the shared slice `images` -/
  images : List ImageHash
  phase : Phase
  /-- the slice `duplicates`, filled by the matching loop -/
  duplicates : List ImageHash
deriving DecidableEq, Repr

/-- Lines 168-192, up to the second `Walk`: the channel is made with capacity
`*NumThreads` and filled, the files are counted and `wg.Add(numFiles)` runs.
`make(chan struct{}, n)` panics for a negative `n`: the run then ends there,
which is `none`.  `paths` are the files both walks find. -/
def startup (flags : Flags) (paths : List String) : Option MainState :=
  if flags.NumThreads < 0 then
    none
  else
    some ⟨flags.NumThreads.toNat, paths, none, [], paths.length, [], Phase.walking, []⟩

/-- The statements a schedule chooses from. -/
inductive Action where
  /-- main: `<-tokens` for the next file of the walk (line 198) -/
  | take
  /-- main: the `go` statement (line 199) -/
  | spawn
  /-- goroutine `i`: lines 204-223, `LoadImage`, and under the mutex the
  append of the fingerprint -/
  | work (i : Nat)
  /-- goroutine `i`: `wg.Done()` (line 201) -/
  | done (i : Nat)
  /-- goroutine `i`: `tokens <- struct{}{}` (line 202) -/
  | send (i : Nat)
  /-- main: the walk has no file left and returns -/
  | endWalk
  /-- main: `wg.Wait()` returns and the matching loop runs -/
  | wait
deriving DecidableEq, Repr

/-- What goroutine `i` appends to `images`: lines 205-215. -/
def taskResult (env : Env) (fpath : String) : List ImageHash :=
  match env.LoadImage fpath with
  | some img => [⟨fpath, DifferenceHash env.resize img⟩]
  | none => []

/-- One statement of the run.  `none` means the statement cannot run in this
state: the goroutine is not at that statement, or the channel operation or
`wg.Wait()` blocks. -/
def step (flags : Flags) (env : Env) (s : MainState) : Action → Option MainState
  | Action.take =>
    match s.phase, s.holding, s.pending, s.tokens with
    | Phase.walking, none, p :: ps, n + 1 =>
      some ⟨n, ps, some p, s.tasks, s.wg, s.images, s.phase, s.duplicates⟩
    | _, _, _, _ => none
  | Action.spawn =>
    match s.holding with
    | some p =>
      some ⟨s.tokens, s.pending, none, s.tasks ++ [⟨p, TaskPc.working⟩], s.wg, s.images,
        s.phase, s.duplicates⟩
    | none => none
  | Action.work i =>
    match s.tasks[i]? with
    | some ⟨p, TaskPc.working⟩ =>
      some ⟨s.tokens, s.pending, s.holding, s.tasks.set i ⟨p, TaskPc.appended⟩, s.wg,
        s.images ++ taskResult env p, s.phase, s.duplicates⟩
    | _ => none
  | Action.done i =>
    match s.tasks[i]? with
    | some ⟨p, TaskPc.appended⟩ =>
      some ⟨s.tokens, s.pending, s.holding, s.tasks.set i ⟨p, TaskPc.signalled⟩, s.wg - 1,
        s.images, s.phase, s.duplicates⟩
    | _ => none
  | Action.send i =>
    match s.tasks[i]? with
    | some ⟨p, TaskPc.signalled⟩ =>
      if s.tokens < flags.NumThreads.toNat then
        some ⟨s.tokens + 1, s.pending, s.holding, s.tasks.set i ⟨p, TaskPc.ended⟩, s.wg,
          s.images, s.phase, s.duplicates⟩
      else
        none
    | _ => none
  | Action.endWalk =>
    match s.phase, s.holding, s.pending with
    | Phase.walking, none, [] =>
      some ⟨s.tokens, s.pending, s.holding, s.tasks, s.wg, s.images, Phase.waiting,
        s.duplicates⟩
    | _, _, _ => none
  | Action.wait =>
    match s.phase with
    | Phase.waiting =>
      if s.wg = 0 then
        some ⟨s.tokens, s.pending, s.holding, s.tasks, s.wg, s.images, Phase.matched,
          matchLoop flags.Similarity s.images⟩
      else
        none
    | _ => none

/-- Run a schedule from `s`; `none` when one of its statements cannot run. -/
def exec (flags : Flags) (env : Env) : List Action → MainState → Option MainState
  | [], s => some s
  | a :: rest, s =>
    match step flags env s a with
    | some s1 => exec flags env rest s1
    | none => none

/-- The state `s` is reached by some schedule from `s0`. -/
def Reachable (flags : Flags) (env : Env) (s0 s : MainState) : Prop :=
  ∃ schedule : List Action, exec flags env schedule s0 = some s

/-- The goroutine has not sent its token back. -/
def Task.holdsToken (t : Task) : Bool :=
  match t.pc with
  | TaskPc.ended => false
  | _ => true

/-- The goroutine has not called `wg.Done()` yet. -/
def Task.beforeDone (t : Task) : Bool :=
  match t.pc with
  | TaskPc.working => true
  | TaskPc.appended => true
  | _ => false

/-- The goroutines in flight: started and not yet returned, each holding the
token that was taken for it. -/
def inFlight (s : MainState) : Nat :=
  s.tasks.countP Task.holdsToken

/-- The tokens that are out of the channel: one for the file main holds a
token for, and one for every goroutine in flight. -/
def tokensOut (s : MainState) : Nat :=
  s.holding.toList.length + inFlight s

/-- The goroutines that have not called `wg.Done()` yet. -/
def notSignalled (s : MainState) : Nat :=
  s.tasks.countP Task.beforeDone

/-! ## Views of the matching loop used by the proofs -/

/-- The flat slice that holds the pairs `P`, two entries per pair. -/
def flat (P : List (ImageHash × ImageHash)) : List ImageHash :=
  P.flatMap (fun p => [p.1, p.2])

/-- An indexed entry of `images`, as `range` yields it. -/
abbrev Entry := Nat × ImageHash

/-- All `(i, v)`, `(j, y)` the two nested loops visit, in visiting order. -/
def candidates (images : List ImageHash) : List (Entry × Entry) :=
  images.enum.flatMap (fun iv => images.enum.map (fun jy => (iv, jy)))

/-- The loop body `matchStep` on a list of pairs instead of a flat slice. -/
def pairStep (Similarity : Int) (P : List (ImageHash × ImageHash)) (c : Entry × Entry) :
    List (ImageHash × ImageHash) :=
  if c.1.1 = c.2.1 then
    P
  else if ∃ q ∈ P, samePaths (c.1.2, c.2.2) q then
    P
  else if (HammingDistance c.1.2.Hash c.2.2.Hash : Int) ≤ Similarity then
    P ++ [(c.1.2, c.2.2)]
  else
    P

/-- The unordered pair of paths a pair of entries represents. -/
def pathPair (p : ImageHash × ImageHash) : Sym2 String :=
  s(p.1.Path, p.2.Path)

/-- The candidate `c` is a pair the loop may append at threshold `t`. -/
def Eligible (t : Int) (c : Entry × Entry) : Prop :=
  c.1.1 ≠ c.2.1 ∧ (HammingDistance c.1.2.Hash c.2.2.Hash : Int) ≤ t

/-! ## Concrete 9 by 8 images -/

/-- A 9 by 8 image, black everywhere. -/
def blackImage : Image :=
  ⟨9, 8, fun _ _ => ⟨0, 0, 0, 0xffff⟩⟩

/-- A 9 by 8 image whose odd columns are a dark red and whose even columns
are black.  `color.GrayModel` gives both colours the luminance 0. -/
def redStripes : Image :=
  ⟨9, 8, fun x _ => if x % 2 = 1 then ⟨800, 0, 0, 0xffff⟩ else ⟨0, 0, 0, 0xffff⟩⟩

/-- A 9 by 8 image whose even columns are cyan, `RGBA() = (0, 0xffff, 0xffff,
0xffff)`, and whose odd columns are red, `RGBA() = (0xffff, 0, 0, 0xffff)`.
`color.GrayModel` gives cyan the luminance 179 and red the luminance 76: along
a row the red sample rises exactly where the luminance falls. -/
def cyanRed : Image :=
  ⟨9, 8, fun x _ => if x % 2 = 1 then ⟨0xffff, 0, 0, 0xffff⟩ else ⟨0, 0xffff, 0xffff, 0xffff⟩⟩

/-! ## Invariants and a sequential schedule of the run -/

/-- The capacity of the channel `tokens`: the concurrency limit. -/
def limit (flags : Flags) : Nat :=
  flags.NumThreads.toNat

/-- What holds in every state of a run over the files `paths`. -/
structure Inv (flags : Flags) (paths : List String) (s : MainState) : Prop where
  /-- every token is either in the channel or out for one task -/
  tokens_eq : s.tokens + tokensOut s = limit flags
  /-- the `WaitGroup` counts the files whose goroutine has not called
  `wg.Done()` -/
  wg_eq : s.wg = ((s.pending.length + s.holding.toList.length + notSignalled s : Nat) : Int)
  /-- after the walk no file is left -/
  walked : s.phase ≠ Phase.walking → s.pending = [] ∧ s.holding = none
  /-- the call `wg.Wait()` returned on a zero counter -/
  waited : s.phase = Phase.matched → s.wg = 0
  /-- the goroutines were started for the files of the walk, in walk order -/
  files_eq : s.tasks.map Task.path ++ s.holding.toList ++ s.pending = paths
  /-- the slice `duplicates` is the result of the matching loop on `images` -/
  matched_eq : s.phase = Phase.matched → s.duplicates = matchLoop flags.Similarity s.images

/-- The schedule that runs one goroutine at a time: for every file the token is
taken, the goroutine started and run to its end; then the walk ends and
`wg.Wait()` returns.  `k` is the index of the next goroutine. -/
def sequentialSchedule (k : Nat) : List String → List Action
  | [] => [Action.endWalk, Action.wait]
  | _ :: ps =>
    [Action.take, Action.spawn, Action.work k, Action.done k, Action.send k]
      ++ sequentialSchedule (k + 1) ps

/-! ## Concrete runs -/

/-- An environment in which every file decodes to `blackImage` and resampling
leaves a 9 by 8 image as it is. -/
def blackEnv : Env :=
  ⟨fun _ => some blackImage, fun _ _ img => img⟩

/-- Eight threads (the default) and the threshold `-1`. -/
def negativeSimilarity : Flags :=
  ⟨8, -1, false, false⟩

/-- Thread count `-1`. -/
def negativeThreads : Flags :=
  ⟨-1, 0, false, false⟩

/-- Thread count `0`. -/
def zeroThreads : Flags :=
  ⟨0, 0, false, false⟩

/-! # Theorems -/

/-! ## HammingDistance -/

theorem foldl_add_eq_sum (f : Nat → Nat) (n : Nat) :
    (List.range n).foldl (fun diff i => diff + f i) 0 = ∑ i in Finset.range n, f i := by
  induction n with
  | zero => simp
  | succ k ih => rw [List.range_succ, List.foldl_append, ih, Finset.sum_range_succ]; rfl

theorem shiftRight_and_one (n i : Nat) :
    (n >>> i) &&& 1 = if n.testBit i then 1 else 0 := by
  rw [Nat.and_one_is_mod, Nat.shiftRight_eq_div_pow, ← Nat.toNat_testBit]
  cases n.testBit i <;> rfl

theorem HammingDistance_eq_sum (a b : Nat) :
    HammingDistance a b
      = ∑ i in Finset.range 64, if (a ^^^ b).testBit i = true then 1 else 0 := by
  unfold HammingDistance
  simp only [shiftRight_and_one]
  exact foldl_add_eq_sum (fun i => if (a ^^^ b).testBit i = true then 1 else 0) 64

theorem HammingDistance_eq_card (a b : Nat) :
    HammingDistance a b
      = ((Finset.range 64).filter (fun i => (a ^^^ b).testBit i = true)).card := by
  rw [HammingDistance_eq_sum, Finset.card_filter]

theorem HammingDistance_comm (a b : Nat) : HammingDistance a b = HammingDistance b a := by
  unfold HammingDistance
  rw [Nat.xor_comm]

theorem HammingDistance_le (a b : Nat) : HammingDistance a b ≤ 64 := by
  rw [HammingDistance_eq_card]
  calc ((Finset.range 64).filter (fun i => (a ^^^ b).testBit i = true)).card
      ≤ (Finset.range 64).card := Finset.card_filter_le _ _
    _ = 64 := Finset.card_range 64

theorem HammingDistance_self (a : Nat) : HammingDistance a a = 0 := by
  rw [HammingDistance_eq_sum]
  simp

theorem eq_of_testBit_below (a b : Nat) (ha : a < 2 ^ 64) (hb : b < 2 ^ 64)
    (h : ∀ i, i < 64 → a.testBit i = b.testBit i) : a = b := by
  apply Nat.eq_of_testBit_eq
  intro i
  by_cases hi : i < 64
  · exact h i hi
  · have h64 : 2 ^ 64 ≤ 2 ^ i := Nat.pow_le_pow_right (by decide) (by omega)
    rw [Nat.testBit_lt_two_pow (lt_of_lt_of_le ha h64),
      Nat.testBit_lt_two_pow (lt_of_lt_of_le hb h64)]

/-- C3: for 64-bit values `a` and `b`, `HammingDistance a b` is the population
count of `a XOR b`, which is the number of bit positions `0..63` where `a` and
`b` differ; it is at most 64 (and, a natural number, at least 0), and it is 0
exactly when `a = b`. -/
theorem HammingDistance_popcount (a b : Nat) (ha : a < 2 ^ 64) (hb : b < 2 ^ 64) :
    HammingDistance a b
        = ((Finset.range 64).filter (fun i => (a ^^^ b).testBit i = true)).card
      ∧ HammingDistance a b
        = ((Finset.range 64).filter (fun i => a.testBit i ≠ b.testBit i)).card
      ∧ 0 ≤ HammingDistance a b ∧ HammingDistance a b ≤ 64
      ∧ (HammingDistance a b = 0 ↔ a = b) := by
  have hcard := HammingDistance_eq_card a b
  have hfilter : (Finset.range 64).filter (fun i => (a ^^^ b).testBit i = true)
      = (Finset.range 64).filter (fun i => a.testBit i ≠ b.testBit i) := by
    apply Finset.filter_congr
    intro i _
    rw [Nat.testBit_xor]
    cases a.testBit i <;> cases b.testBit i <;> simp
  refine ⟨hcard, by rw [hcard, hfilter], Nat.zero_le _, HammingDistance_le a b, ?_, ?_⟩
  · intro h0
    rw [hcard, hfilter, Finset.card_eq_zero, Finset.filter_eq_empty_iff] at h0
    apply eq_of_testBit_below a b ha hb
    intro i hi
    have := h0 (Finset.mem_range.mpr hi)
    simpa using this
  · intro hab
    rw [hab]
    exact HammingDistance_self b

/-- Witness for C3 at `a = 0`, `b = 31`: five differing bits. -/
theorem HammingDistance_popcount_witness :
    HammingDistance 0 31
        = ((Finset.range 64).filter (fun i => (0 ^^^ 31).testBit i = true)).card
      ∧ HammingDistance 0 31
        = ((Finset.range 64).filter (fun i => (0 : Nat).testBit i ≠ (31 : Nat).testBit i)).card
      ∧ 0 ≤ HammingDistance 0 31 ∧ HammingDistance 0 31 ≤ 64
      ∧ (HammingDistance 0 31 = 0 ↔ (0 : Nat) = 31) :=
  HammingDistance_popcount 0 31 (by decide) (by decide)

/-- C7: the triangle inequality
`HammingDistance a b ≤ HammingDistance a c + HammingDistance c b`. -/
theorem HammingDistance_triangle (a b c : Nat) :
    HammingDistance a b ≤ HammingDistance a c + HammingDistance c b := by
  rw [HammingDistance_eq_sum a b, HammingDistance_eq_sum a c, HammingDistance_eq_sum c b,
    ← Finset.sum_add_distrib]
  apply Finset.sum_le_sum
  intro i _
  rw [Nat.testBit_xor, Nat.testBit_xor, Nat.testBit_xor]
  cases a.testBit i <;> cases b.testBit i <;> cases c.testBit i <;> simp

/-! ## The matching loop -/

theorem pairsOf_flat (P : List (ImageHash × ImageHash)) : pairsOf (flat P) = P := by
  induction P with
  | nil => rfl
  | cons p P ih =>
    show pairsOf (p.1 :: p.2 :: flat P) = p :: P
    simp [pairsOf, ih]

theorem flat_append (P Q : List (ImageHash × ImageHash)) : flat (P ++ Q) = flat P ++ flat Q := by
  simp [flat]

theorem length_flat (P : List (ImageHash × ImageHash)) : (flat P).length = 2 * P.length := by
  induction P with
  | nil => rfl
  | cons p P ih =>
    show (p.1 :: p.2 :: flat P).length = 2 * (P.length + 1)
    simp [ih]; omega

theorem alreadyListed_flat (v y : ImageHash) (P : List (ImageHash × ImageHash)) :
    alreadyListed v y (flat P) = true ↔ ∃ q ∈ P, samePaths (v, y) q := by
  induction P with
  | nil => simp [flat, alreadyListed]
  | cons p P ih =>
    show alreadyListed v y (p.1 :: p.2 :: flat P) = true ↔ _
    unfold alreadyListed
    by_cases h : (v.Path = p.1.Path ∧ y.Path = p.2.Path) ∨ (v.Path = p.2.Path ∧ y.Path = p.1.Path)
    · simp only [h, if_true, true_iff]
      exact ⟨p, List.mem_cons_self _ _, h⟩
    · simp only [h, if_false, ih, List.mem_cons, exists_eq_or_imp]
      constructor
      · intro hq; exact Or.inr hq
      · rintro (hp | hq)
        · exact absurd hp h
        · exact hq

theorem matchStep_flat (t : Int) (P : List (ImageHash × ImageHash)) (iv jy : Entry) :
    matchStep t iv.1 iv.2 (flat P) jy = flat (pairStep t P (iv, jy)) := by
  unfold matchStep pairStep
  by_cases h1 : iv.1 = jy.1
  · simp [h1]
  · by_cases h2 : ∃ q ∈ P, samePaths (iv.2, jy.2) q
    · have h2a := (alreadyListed_flat iv.2 jy.2 P).mpr h2
      simp only [h1, if_false, h2a, if_true, h2]
    · have h2a : alreadyListed iv.2 jy.2 (flat P) = false := by
        cases hb : alreadyListed iv.2 jy.2 (flat P)
        · rfl
        · exact absurd ((alreadyListed_flat iv.2 jy.2 P).mp hb) h2
      simp only [h1, if_false, h2a, h2, Bool.false_eq_true]
      by_cases h3 : (HammingDistance iv.2.Hash jy.2.Hash : Int) ≤ t
      · simp only [h3, if_true, flat_append]
        rfl
      · simp only [h3, if_false]

theorem foldl_flatMap_eq {α β γ : Type} (f : α → List β) (g : γ → β → γ) (l : List α) (init : γ) :
    (l.flatMap f).foldl g init = l.foldl (fun acc a => (f a).foldl g acc) init := by
  induction l generalizing init with
  | nil => rfl
  | cons a l ih => simp [List.flatMap_cons, List.foldl_append, ih]

theorem matchInner_flat (t : Int) (iv : Entry)
    (js : List Entry) (P : List (ImageHash × ImageHash)) :
    js.foldl (matchStep t iv.1 iv.2) (flat P)
      = flat ((js.map (fun jy => (iv, jy))).foldl (pairStep t) P) := by
  induction js generalizing P with
  | nil => rfl
  | cons jy js ih =>
    simp only [List.foldl_cons, List.map_cons]
    rw [matchStep_flat, ih]

theorem matchLoop_eq_flat (t : Int) (images : List ImageHash) :
    matchLoop t images = flat ((candidates images).foldl (pairStep t) []) := by
  unfold matchLoop candidates
  rw [foldl_flatMap_eq]
  have key : ∀ (is : List Entry) (P : List (ImageHash × ImageHash)),
      is.foldl (matchInner t images) (flat P)
        = flat (is.foldl (fun acc iv =>
            (images.enum.map (fun jy => (iv, jy))).foldl (pairStep t) acc) P) := by
    intro is
    induction is with
    | nil => intro P; rfl
    | cons iv is ih =>
      intro P
      simp only [List.foldl_cons]
      unfold matchInner
      rw [matchInner_flat t iv images.enum P]
      exact ih _
  exact key images.enum []

theorem pairsOf_matchLoop (t : Int) (images : List ImageHash) :
    pairsOf (matchLoop t images) = (candidates images).foldl (pairStep t) [] := by
  rw [matchLoop_eq_flat, pairsOf_flat]

theorem samePaths_symm {p q : ImageHash × ImageHash} (h : samePaths p q) : samePaths q p := by
  rcases h with ⟨h1, h2⟩ | ⟨h1, h2⟩
  · exact Or.inl ⟨h1.symm, h2.symm⟩
  · exact Or.inr ⟨h2.symm, h1.symm⟩

theorem samePaths_iff_pathPair (p q : ImageHash × ImageHash) :
    samePaths p q ↔ pathPair p = pathPair q := by
  unfold samePaths pathPair
  rw [Sym2.eq_iff]

theorem pairStep_subset (t : Int) (P : List (ImageHash × ImageHash)) (c : Entry × Entry) :
    ∀ e ∈ P, e ∈ pairStep t P c := by
  intro e he
  unfold pairStep
  split_ifs <;> simp [he]

theorem foldl_pairStep_subset (t : Int) (C : List (Entry × Entry))
    (P : List (ImageHash × ImageHash)) :
    ∀ e ∈ P, e ∈ C.foldl (pairStep t) P := by
  induction C generalizing P with
  | nil => intro e he; exact he
  | cons c C ih =>
    intro e he
    exact ih (pairStep t P c) e (pairStep_subset t P c e he)

theorem pairStep_sound (t : Int) (P : List (ImageHash × ImageHash)) (c : Entry × Entry) :
    ∀ e ∈ pairStep t P c, e ∈ P ∨ (Eligible t c ∧ e = (c.1.2, c.2.2)) := by
  intro e he
  unfold pairStep at he
  split_ifs at he with h1 h2 h3
  · exact Or.inl he
  · exact Or.inl he
  · rcases List.mem_append.mp he with h | h
    · exact Or.inl h
    · exact Or.inr ⟨⟨h1, h3⟩, by simpa using h⟩
  · exact Or.inl he

theorem foldl_pairStep_sound (t : Int) (C : List (Entry × Entry))
    (P : List (ImageHash × ImageHash)) :
    ∀ e ∈ C.foldl (pairStep t) P, e ∈ P ∨ ∃ c ∈ C, Eligible t c ∧ e = (c.1.2, c.2.2) := by
  induction C generalizing P with
  | nil => intro e he; exact Or.inl he
  | cons c C ih =>
    intro e he
    rcases ih (pairStep t P c) e he with h | ⟨c1, hc1, hel⟩
    · rcases pairStep_sound t P c e h with h | h
      · exact Or.inl h
      · exact Or.inr ⟨c, List.mem_cons_self _ _, h⟩
    · exact Or.inr ⟨c1, List.mem_cons_of_mem _ hc1, hel⟩

theorem pairStep_complete (t : Int) (P : List (ImageHash × ImageHash)) (c : Entry × Entry)
    (hc : Eligible t c) : ∃ e ∈ pairStep t P c, samePaths (c.1.2, c.2.2) e := by
  unfold pairStep
  by_cases h2 : ∃ q ∈ P, samePaths (c.1.2, c.2.2) q
  · simp only [hc.1, if_false, h2, if_true]
  · simp only [hc.1, if_false, h2, hc.2, if_true]
    exact ⟨(c.1.2, c.2.2), by simp, Or.inl ⟨rfl, rfl⟩⟩

theorem foldl_pairStep_complete (t : Int) (C : List (Entry × Entry))
    (P : List (ImageHash × ImageHash)) :
    ∀ c ∈ C, Eligible t c → ∃ e ∈ C.foldl (pairStep t) P, samePaths (c.1.2, c.2.2) e := by
  induction C generalizing P with
  | nil => intro c hc; simp at hc
  | cons c0 C ih =>
    intro c hc hel
    rcases List.mem_cons.mp hc with h | h
    · subst h
      obtain ⟨e, he, hs⟩ := pairStep_complete t P c hel
      exact ⟨e, foldl_pairStep_subset t C _ e he, hs⟩
    · exact ih (pairStep t P c0) c h hel

theorem pairStep_pairwise (t : Int) (P : List (ImageHash × ImageHash)) (c : Entry × Entry)
    (hP : P.Pairwise (fun p q => ¬ samePaths p q)) :
    (pairStep t P c).Pairwise (fun p q => ¬ samePaths p q) := by
  unfold pairStep
  split_ifs with h1 h2 h3
  · exact hP
  · exact hP
  · rw [List.pairwise_append]
    refine ⟨hP, List.pairwise_singleton _ _, ?_⟩
    intro a ha b hb hs
    have hb1 : b = (c.1.2, c.2.2) := by simpa using hb
    subst hb1
    exact h2 ⟨a, ha, samePaths_symm hs⟩
  · exact hP

theorem foldl_pairStep_pairwise (t : Int) (C : List (Entry × Entry))
    (P : List (ImageHash × ImageHash)) (hP : P.Pairwise (fun p q => ¬ samePaths p q)) :
    (C.foldl (pairStep t) P).Pairwise (fun p q => ¬ samePaths p q) := by
  induction C generalizing P with
  | nil => exact hP
  | cons c C ih => exact ih (pairStep t P c) (pairStep_pairwise t P c hP)

theorem mem_candidates (images : List ImageHash) (c : Entry × Entry) :
    c ∈ candidates images ↔ images[c.1.1]? = some c.1.2 ∧ images[c.2.1]? = some c.2.2 := by
  unfold candidates
  rw [List.mem_flatMap]
  constructor
  · rintro ⟨iv, hiv, hc⟩
    obtain ⟨jy, hjy, rfl⟩ := List.mem_map.mp hc
    exact ⟨List.mk_mem_enum_iff_getElem?.mp hiv, List.mk_mem_enum_iff_getElem?.mp hjy⟩
  · rintro ⟨h1, h2⟩
    refine ⟨c.1, List.mk_mem_enum_iff_getElem?.mpr h1, ?_⟩
    exact List.mem_map.mpr ⟨c.2, List.mk_mem_enum_iff_getElem?.mpr h2, rfl⟩

theorem countP_le_one_of_pairwise {α : Type} (R : α → α → Prop) (Q : α → Bool) (L : List α)
    (hL : L.Pairwise (fun a b => ¬ R a b)) (hQ : ∀ a b, Q a = true → Q b = true → R a b) :
    L.countP Q ≤ 1 := by
  induction L with
  | nil => simp
  | cons x xs ih =>
    rw [List.pairwise_cons] at hL
    by_cases hx : Q x = true
    · have h0 : xs.countP Q = 0 := by
        rw [List.countP_eq_zero]
        intro a ha hqa
        exact hL.1 a ha (hQ x a hx hqa)
      rw [List.countP_cons_of_pos _ _ hx, h0]
    · rw [List.countP_cons_of_neg _ _ hx]
      exact ih hL.2

theorem path_index_inj (images : List ImageHash)
    (hd : (images.map (fun f => f.Path)).Nodup) (a i : Nat)
    (ha : a < images.length) (hi : i < images.length)
    (h : images[a].Path = images[i].Path) : a = i := by
  have ha1 : a < (images.map (fun f => f.Path)).length := by simpa using ha
  have hi1 : i < (images.map (fun f => f.Path)).length := by simpa using hi
  have h1 : (images.map (fun f => f.Path))[a] = (images.map (fun f => f.Path))[i] := by
    simpa using h
  exact (List.Nodup.getElem_inj_iff hd).mp h1

theorem mem_pairs_matchLoop (t : Int) (images : List ImageHash) (e : ImageHash × ImageHash)
    (he : e ∈ pairsOf (matchLoop t images)) :
    ∃ (a b : Nat) (ha : a < images.length) (hb : b < images.length), a ≠ b
      ∧ e = (images[a], images[b])
      ∧ (HammingDistance images[a].Hash images[b].Hash : Int) ≤ t := by
  rw [pairsOf_matchLoop] at he
  rcases foldl_pairStep_sound t (candidates images) [] e he with h | ⟨c, hc, hel, rfl⟩
  · simp at h
  · obtain ⟨h1, h2⟩ := (mem_candidates images c).mp hc
    obtain ⟨ha, hva⟩ := List.getElem?_eq_some.mp h1
    obtain ⟨hb, hvb⟩ := List.getElem?_eq_some.mp h2
    refine ⟨c.1.1, c.2.1, ha, hb, hel.1, ?_, ?_⟩
    · rw [hva, hvb]
    · rw [hva, hvb]; exact hel.2

theorem exists_pair_matchLoop (t : Int) (images : List ImageHash) (i j : Nat)
    (hi : i < images.length) (hj : j < images.length) (hij : i ≠ j)
    (hd : (HammingDistance images[i].Hash images[j].Hash : Int) ≤ t) :
    ∃ e ∈ pairsOf (matchLoop t images), samePaths (images[i], images[j]) e := by
  rw [pairsOf_matchLoop]
  have hc : ((i, images[i]), (j, images[j])) ∈ candidates images := by
    rw [mem_candidates]
    exact ⟨List.getElem?_eq_some.mpr ⟨hi, rfl⟩, List.getElem?_eq_some.mpr ⟨hj, rfl⟩⟩
  exact foldl_pairStep_complete t (candidates images) [] _ hc ⟨hij, hd⟩

theorem pairwise_pairs_matchLoop (t : Int) (images : List ImageHash) :
    (pairsOf (matchLoop t images)).Pairwise (fun p q => ¬ samePaths p q) := by
  rw [pairsOf_matchLoop]
  exact foldl_pairStep_pairwise t (candidates images) [] List.Pairwise.nil

/-- C1: when the paths of `images` are pairwise distinct, the duplicate list
the matching loop builds is made of whole pairs, each a pair
`(images[a], images[b])` with `a ≠ b` within the threshold, and for all
`i ≠ j` the number of its pairs that are `(images[i], images[j])` or
`(images[j], images[i])` is 1 when
`HammingDistance images[i].Hash images[j].Hash ≤ t` and 0 otherwise. -/
theorem matchLoop_pair_exactly_once (images : List ImageHash) (t : Int)
    (hd : (images.map (fun f => f.Path)).Nodup) (i j : Nat)
    (hi : i < images.length) (hj : j < images.length) (hij : i ≠ j) :
    matchLoop t images = flat (pairsOf (matchLoop t images))
      ∧ (∀ e ∈ pairsOf (matchLoop t images),
          ∃ (a b : Nat) (ha : a < images.length) (hb : b < images.length), a ≠ b
            ∧ e = (images[a], images[b])
            ∧ (HammingDistance images[a].Hash images[b].Hash : Int) ≤ t)
      ∧ (pairsOf (matchLoop t images)).countP
            (fun e => decide (e = (images[i], images[j]) ∨ e = (images[j], images[i])))
          = if (HammingDistance images[i].Hash images[j].Hash : Int) ≤ t then 1 else 0 := by
  refine ⟨?_, mem_pairs_matchLoop t images, ?_⟩
  · rw [pairsOf_matchLoop, ← matchLoop_eq_flat]
  · by_cases hle : (HammingDistance images[i].Hash images[j].Hash : Int) ≤ t
    · rw [if_pos hle]
      apply le_antisymm
      · apply countP_le_one_of_pairwise samePaths _ _ (pairwise_pairs_matchLoop t images)
        intro a b hqa hqb
        have ha : a = (images[i], images[j]) ∨ a = (images[j], images[i]) := by simpa using hqa
        have hb : b = (images[i], images[j]) ∨ b = (images[j], images[i]) := by simpa using hqb
        rcases ha with rfl | rfl <;> rcases hb with rfl | rfl
        · exact Or.inl ⟨rfl, rfl⟩
        · exact Or.inr ⟨rfl, rfl⟩
        · exact Or.inr ⟨rfl, rfl⟩
        · exact Or.inl ⟨rfl, rfl⟩
      · rw [Nat.succ_le_iff, List.countP_pos_iff]
        obtain ⟨e, he, hs⟩ := exists_pair_matchLoop t images i j hi hj hij hle
        refine ⟨e, he, ?_⟩
        obtain ⟨a, b, ha, hb, _, rfl, _⟩ := mem_pairs_matchLoop t images e he
        rcases hs with ⟨h1, h2⟩ | ⟨h1, h2⟩
        · have e1 : i = a := path_index_inj images hd i a hi ha h1
          have e2 : j = b := path_index_inj images hd j b hj hb h2
          subst e1; subst e2
          simp
        · have e1 : i = b := path_index_inj images hd i b hi hb h1
          have e2 : j = a := path_index_inj images hd j a hj ha h2
          subst e1; subst e2
          simp
    · rw [if_neg hle, List.countP_eq_zero]
      intro e he hq
      obtain ⟨a, b, ha, hb, _, rfl, hab⟩ := mem_pairs_matchLoop t images e he
      have hq1 : (images[a], images[b]) = (images[i], images[j])
          ∨ (images[a], images[b]) = (images[j], images[i]) := by simpa using hq
      rcases hq1 with h | h
      · rw [Prod.mk.injEq] at h
        rw [h.1, h.2] at hab
        exact hle hab
      · rw [Prod.mk.injEq] at h
        rw [h.1, h.2, HammingDistance_comm] at hab
        exact hle hab

/-- Witness for C1: `/a.png` and `/b.png` with equal hashes give one pair at
threshold 0; hashes `0` and `31`, at distance 5, give no pair at threshold 3
and one pair at threshold 5. -/
theorem matchLoop_pair_exactly_once_witness :
    ([(⟨"/a.png", 7⟩ : ImageHash), ⟨"/b.png", 7⟩].map (fun f => f.Path)).Nodup
      ∧ (pairsOf (matchLoop 0 [⟨"/a.png", 7⟩, ⟨"/b.png", 7⟩])).countP
            (fun e => decide (e = (⟨"/a.png", 7⟩, ⟨"/b.png", 7⟩)
              ∨ e = (⟨"/b.png", 7⟩, ⟨"/a.png", 7⟩))) = 1
      ∧ HammingDistance 0 31 = 5
      ∧ (pairsOf (matchLoop 3 [⟨"/a.png", 0⟩, ⟨"/b.png", 31⟩])).countP
            (fun e => decide (e = (⟨"/a.png", 0⟩, ⟨"/b.png", 31⟩)
              ∨ e = (⟨"/b.png", 31⟩, ⟨"/a.png", 0⟩))) = 0
      ∧ (pairsOf (matchLoop 5 [⟨"/a.png", 0⟩, ⟨"/b.png", 31⟩])).countP
            (fun e => decide (e = (⟨"/a.png", 0⟩, ⟨"/b.png", 31⟩)
              ∨ e = (⟨"/b.png", 31⟩, ⟨"/a.png", 0⟩))) = 1 :=
  ⟨by decide,
    (matchLoop_pair_exactly_once [⟨"/a.png", 7⟩, ⟨"/b.png", 7⟩] 0 (by decide) 0 1
      (by decide) (by decide) (by decide)).2.2.trans (by decide),
    by decide,
    (matchLoop_pair_exactly_once [⟨"/a.png", 0⟩, ⟨"/b.png", 31⟩] 3 (by decide) 0 1
      (by decide) (by decide) (by decide)).2.2.trans (by decide),
    (matchLoop_pair_exactly_once [⟨"/a.png", 0⟩, ⟨"/b.png", 31⟩] 5 (by decide) 0 1
      (by decide) (by decide) (by decide)).2.2.trans (by decide)⟩

/-- C2: for every file list, repeated paths included, and every threshold, no
two pairs of the duplicate list represent the same unordered pair of paths:
the unordered path pairs of its entries are pairwise different, so no pair
appears twice and none appears both as `(A, B)` and as `(B, A)`. -/
theorem matchLoop_no_duplicate_pairs (images : List ImageHash) (t : Int) :
    matchLoop t images = flat (pairsOf (matchLoop t images))
      ∧ ((pairsOf (matchLoop t images)).map pathPair).Nodup
      ∧ (pairsOf (matchLoop t images)).Pairwise (fun p q => ¬ samePaths p q) := by
  refine ⟨?_, ?_, pairwise_pairs_matchLoop t images⟩
  · rw [pairsOf_matchLoop, ← matchLoop_eq_flat]
  · unfold List.Nodup
    rw [List.pairwise_map]
    apply List.Pairwise.imp _ (pairwise_pairs_matchLoop t images)
    intro p q hpq heq
    exact hpq ((samePaths_iff_pathPair p q).mpr heq)

/-- C6: for every file list and thresholds `t1 < t2`, every unordered pair of
paths in the duplicate list for `t1` is in the duplicate list for `t2`. -/
theorem matchLoop_threshold_mono (images : List ImageHash) (t1 t2 : Int) (h : t1 < t2) :
    (pairsOf (matchLoop t1 images)).map pathPair
      ⊆ (pairsOf (matchLoop t2 images)).map pathPair := by
  intro u hu
  obtain ⟨e, he, rfl⟩ := List.mem_map.mp hu
  obtain ⟨a, b, ha, hb, hab, rfl, hle⟩ := mem_pairs_matchLoop t1 images e he
  obtain ⟨e2, he2, hs⟩ :=
    exists_pair_matchLoop t2 images a b ha hb hab (le_trans hle (le_of_lt h))
  rw [samePaths_iff_pathPair] at hs
  rw [hs]
  exact List.mem_map.mpr ⟨e2, he2, rfl⟩

/-- Witness for C6: hashes `0`, `31` and `63` at thresholds 5 and 6; two pairs
are listed at 5 and three at 6. -/
theorem matchLoop_threshold_mono_witness :
    (5 : Int) < 6
      ∧ (pairsOf (matchLoop 5 [⟨"/a.png", 0⟩, ⟨"/b.png", 31⟩, ⟨"/c.png", 63⟩])).length = 2
      ∧ (pairsOf (matchLoop 6 [⟨"/a.png", 0⟩, ⟨"/b.png", 31⟩, ⟨"/c.png", 63⟩])).length = 3
      ∧ (pairsOf (matchLoop 5 [⟨"/a.png", 0⟩, ⟨"/b.png", 31⟩, ⟨"/c.png", 63⟩])).map pathPair
        ⊆ (pairsOf (matchLoop 6 [⟨"/a.png", 0⟩, ⟨"/b.png", 31⟩, ⟨"/c.png", 63⟩])).map
            pathPair :=
  ⟨by decide, by decide, by decide,
    matchLoop_threshold_mono [⟨"/a.png", 0⟩, ⟨"/b.png", 31⟩, ⟨"/c.png", 63⟩] 5 6 (by decide)⟩

/-! ## Plain-text output -/

theorem getD_flat (P : List (ImageHash × ImageHash)) (m : Nat) (hm : m < P.length)
    (d : ImageHash) :
    (flat P).getD (2 * m) d = P[m].1 ∧ (flat P).getD (2 * m + 1) d = P[m].2 := by
  induction P generalizing m with
  | nil => simp at hm
  | cons p P ih =>
    have hflat : flat (p :: P) = p.1 :: p.2 :: flat P := rfl
    cases m with
    | zero => simp [hflat]
    | succ k =>
      have hk : k < P.length := by simpa using hm
      have e1 : 2 * (k + 1) = 2 * k + 1 + 1 := by ring
      have e2 : 2 * (k + 1) + 1 = 2 * k + 1 + 1 + 1 := by ring
      obtain ⟨h1, h2⟩ := ih k hk
      constructor
      · rw [hflat, e1, List.getD_cons_succ, List.getD_cons_succ, h1]
        simp
      · rw [hflat, e2, List.getD_cons_succ, List.getD_cons_succ, h2]
        simp

theorem printLoop_flat (abs : String → String) (P : List (ImageHash × ImageHash)) :
    ∀ (fuel m : Nat), (P.length + 1) / 2 ≤ fuel + m →
      printLoop abs (flat P) fuel (2 * m)
        = ((P.take ((P.length + 1) / 2)).drop m).map (pairLine abs) := by
  intro fuel
  induction fuel with
  | zero =>
    intro m hm
    have : (P.take ((P.length + 1) / 2)).drop m = [] := by
      apply List.drop_eq_nil_of_le
      rw [List.length_take]
      omega
    rw [this]
    rfl
  | succ f ih =>
    intro m hm
    unfold printLoop
    rw [length_flat]
    by_cases hlt : 2 * m < 2 * P.length / 2
    · have hmk : m < P.length := by omega
      have hmK : m < (P.take ((P.length + 1) / 2)).length := by
        rw [List.length_take]; omega
      obtain ⟨h1, h2⟩ := getD_flat P m hmk ⟨"", 0⟩
      rw [if_pos hlt, h1, h2, show 2 * m + 2 = 2 * (m + 1) by ring, ih (m + 1) (by omega)]
      rw [List.drop_eq_getElem_cons hmK, List.map_cons, List.getElem_take]
      rfl
    · have : (P.take ((P.length + 1) / 2)).drop m = [] := by
        apply List.drop_eq_nil_of_le
        rw [List.length_take]
        omega
      rw [if_neg hlt, this]
      rfl

/-- What the plain-text branch prints for a duplicate list of `k` pairs: the
lines of the first `(k + 1) / 2` pairs. -/
theorem printPlain_flat (abs : String → String) (P : List (ImageHash × ImageHash)) :
    printPlain abs (flat P) = (P.take ((P.length + 1) / 2)).map (pairLine abs) := by
  unfold printPlain
  have h := printLoop_flat abs P (flat P).length 0 (by rw [length_flat]; omega)
  simpa using h

/-- C5 (evaluation at the failing input): four files, `/a` and `/b` with hash
`0`, `/c` and `/d` with hash `2^64 - 1`, threshold 0.  The matching loop finds
the two pairs `(/a, /b)` and `(/c, /d)`; the plain-text branch prints one line,
for `(/a, /b)`, and none for `(/c, /d)`. -/
theorem printPlain_skips_pairs :
    pairsOf (matchLoop 0 [⟨"/a", 0⟩, ⟨"/b", 0⟩, ⟨"/c", 2 ^ 64 - 1⟩, ⟨"/d", 2 ^ 64 - 1⟩])
        = [(⟨"/a", 0⟩, ⟨"/b", 0⟩), (⟨"/c", 2 ^ 64 - 1⟩, ⟨"/d", 2 ^ 64 - 1⟩)]
      ∧ printPlain (fun path => path)
          (matchLoop 0 [⟨"/a", 0⟩, ⟨"/b", 0⟩, ⟨"/c", 2 ^ 64 - 1⟩, ⟨"/d", 2 ^ 64 - 1⟩])
        = ["/a\t/b\n"] := by
  constructor <;> decide

/-! ## DifferenceHash -/

theorem testBit_one_shiftLeft_mod (c k : Nat) :
    ((1 <<< c) % 2 ^ 64).testBit k = decide (k = c ∧ k < 64) := by
  rw [Nat.testBit_mod_two_pow, Nat.one_shiftLeft, Nat.testBit_two_pow]
  by_cases h1 : k < 64 <;> by_cases h2 : c = k <;> simp [h1, h2, eq_comm]

/-- The inner loop after the columns `0..n` of row `y`, started in `s0`: `n`
comparisons were made, and they set the bits `s0.c`, ..., `s0.c + n - 1`. -/
theorem scanRow_columns (gray : Image) (y : Nat) (s0 : ScanState) (n : Nat) :
    ((List.range (n + 1)).foldl (scanPixel gray y) s0).c = s0.c + n
      ∧ ((List.range (n + 1)).foldl (scanPixel gray y) s0).last = clrAt gray n y
      ∧ ∀ k, ((List.range (n + 1)).foldl (scanPixel gray y) s0).hash.testBit k
          = (s0.hash.testBit k
              || (decide (s0.c ≤ k ∧ k < s0.c + n ∧ k < 64)
                  && decide (clrAt gray (k - s0.c) y < clrAt gray (k - s0.c + 1) y))) := by
  induction n with
  | zero =>
    have hr : List.range (0 + 1) = [0] := rfl
    rw [hr, List.foldl_cons, List.foldl_nil]
    refine ⟨rfl, rfl, ?_⟩
    intro k
    have hk : ¬ (s0.c ≤ k ∧ k < s0.c + 0 ∧ k < 64) := by omega
    simp only [hk, decide_False, Bool.false_and, Bool.or_false]
    rfl
  | succ n ih =>
    obtain ⟨hc, hl, hb⟩ := ih
    rw [List.range_succ, List.foldl_append, List.foldl_cons, List.foldl_nil]
    generalize (List.range (n + 1)).foldl (scanPixel gray y) s0 = s at hc hl hb
    unfold scanPixel
    simp only [Nat.succ_pos, gt_iff_lt, if_true, hl]
    by_cases hlt : clrAt gray n y < clrAt gray (n + 1) y
    · simp only [hlt, if_true, hc, true_and]
      refine ⟨by omega, ?_⟩
      intro k
      rw [Nat.testBit_or, hb k, testBit_one_shiftLeft_mod]
      by_cases hk : k = s0.c + n
      · subst hk
        have e1 : s0.c + n - s0.c = n := by omega
        by_cases h64 : s0.c + n < 64 <;> simp [h64, e1, hlt]
      · by_cases hk2 : s0.c ≤ k ∧ k < s0.c + n ∧ k < 64
        · have hk3 : s0.c ≤ k ∧ k < s0.c + (n + 1) ∧ k < 64 := by omega
          simp [hk, hk2, hk3]
        · have hk3 : ¬ (s0.c ≤ k ∧ k < s0.c + (n + 1) ∧ k < 64) := by omega
          simp [hk, hk2, hk3]
    · simp only [hlt, if_false, hc, true_and]
      refine ⟨by omega, ?_⟩
      intro k
      rw [hb k]
      by_cases hk : k = s0.c + n
      · subst hk
        have e1 : s0.c + n - s0.c = n := by omega
        simp [e1, hlt]
      · by_cases hk2 : s0.c ≤ k ∧ k < s0.c + n ∧ k < 64
        · have hk3 : s0.c ≤ k ∧ k < s0.c + (n + 1) ∧ k < 64 := by omega
          simp [hk2, hk3]
        · have hk3 : ¬ (s0.c ≤ k ∧ k < s0.c + (n + 1) ∧ k < 64) := by omega
          simp [hk2, hk3]

/-- The outer loop on a grid 9 wide, after `m` rows: `8 * m` comparisons, and
bit `k` below `8 * m` is the comparison of the pixels `k % 8` and `k % 8 + 1`
of row `k / 8`. -/
theorem scan_rows (gray : Image) (hw : gray.Dx = 9) (m : Nat) :
    ((List.range m).foldl (scanRow gray) ⟨0, 0, 0⟩).c = 8 * m
      ∧ ∀ k, ((List.range m).foldl (scanRow gray) ⟨0, 0, 0⟩).hash.testBit k
          = (decide (k < 8 * m ∧ k < 64)
              && decide (clrAt gray (k % 8) (k / 8) < clrAt gray (k % 8 + 1) (k / 8))) := by
  induction m with
  | zero => simp
  | succ m ih =>
    obtain ⟨hc, hb⟩ := ih
    rw [List.range_succ, List.foldl_append, List.foldl_cons, List.foldl_nil]
    generalize (List.range m).foldl (scanRow gray) ⟨0, 0, 0⟩ = s at hc hb
    unfold scanRow
    rw [hw]
    obtain ⟨rc, _, rb⟩ := scanRow_columns gray m s 8
    refine ⟨by rw [rc, hc]; ring, ?_⟩
    intro k
    rw [rb k, hb k, hc]
    by_cases h1 : k < 8 * m
    · have h2 : ¬ (8 * m ≤ k ∧ k < 8 * m + 8 ∧ k < 64) := by omega
      have h3 : k < 8 * (m + 1) := by omega
      by_cases h64 : k < 64 <;> simp [h1, h2, h3, h64]
    · by_cases h2 : k < 8 * m + 8 ∧ k < 64
      · have h3 : 8 * m ≤ k ∧ k < 8 * m + 8 ∧ k < 64 := by omega
        have h4 : k < 8 * (m + 1) ∧ k < 64 := by omega
        have e1 : k - 8 * m = k % 8 := by omega
        have e2 : k / 8 = m := by omega
        simp [h1, h3, h4, e1, e2]
      · have h3 : ¬ (8 * m ≤ k ∧ k < 8 * m + 8 ∧ k < 64) := by omega
        have h4 : ¬ (k < 8 * (m + 1) ∧ k < 64) := by omega
        simp [h1, h3, h4]

theorem grayColor_r (y : Nat) (h : y ≤ 255) : (grayColor y).r = 257 * y := by
  show y ||| (y <<< 8) = 257 * y
  rw [Nat.shiftLeft_eq, Nat.lor_comm, Nat.mul_comm y (2 ^ 8),
    ← Nat.mul_add_lt_is_or (by omega : y < 2 ^ 8) y]
  omega

theorem scan_bits (gray : Image) (hw : gray.Dx = 9) (hh : gray.Dy = 8) (y x : Nat)
    (hy : y < 8) (hx1 : 1 ≤ x) (hx8 : x ≤ 8) :
    (scan gray).hash.testBit (8 * y + (x - 1)) = true
      ↔ clrAt gray (x - 1) y < clrAt gray x y := by
  unfold scan
  rw [hh, (scan_rows gray hw 8).2]
  have h1 : 8 * y + (x - 1) < 8 * 8 ∧ 8 * y + (x - 1) < 64 := by omega
  have e1 : (8 * y + (x - 1)) % 8 = x - 1 := by omega
  have e2 : (8 * y + (x - 1)) / 8 = y := by omega
  have e3 : x - 1 + 1 = x := by omega
  simp [h1, e1, e2, e3]

/-- The layout of the signature in terms of the sample the loop reads: when
the resampled grid is 9 wide and 8 tall, `DifferenceHash` makes exactly 64
comparisons (the final value of the counter `c`) and returns a value below
`2^64` whose bit `8*y + (x-1)`, for `0 ≤ y < 8` and `1 ≤ x ≤ 8`, is 1 if and
only if the sample read at `(x, y)`, the first value of `RGBA()`, is strictly
greater than the one read at `(x-1, y)`; the first comparison is bit 0, and a
pixel of the first column changes neither the hash nor the counter.  Only on a
grid whose pixels are all grey is this the order of the luminances. -/
theorem DifferenceHash_layout (resize : Nat → Nat → Image → Image) (img : Image)
    (hw : (resize 9 8 img).Dx = 9) (hh : (resize 9 8 img).Dy = 8) :
    (scan (resize 9 8 img)).c = 64
      ∧ DifferenceHash resize img < 2 ^ 64
      ∧ (∀ y x, y < 8 → 1 ≤ x → x ≤ 8 →
          ((DifferenceHash resize img).testBit (8 * y + (x - 1)) = true
            ↔ clrAt (resize 9 8 img) (x - 1) y < clrAt (resize 9 8 img) x y))
      ∧ ((DifferenceHash resize img).testBit 0 = true
          ↔ clrAt (resize 9 8 img) 0 0 < clrAt (resize 9 8 img) 1 0)
      ∧ (∀ (s : ScanState) (y : Nat),
          (scanPixel (resize 9 8 img) y s 0).hash = s.hash
            ∧ (scanPixel (resize 9 8 img) y s 0).c = s.c)
      ∧ (∀ lum : Nat → Nat → Nat,
          (∀ x y, lum x y ≤ 255 ∧ (resize 9 8 img).At x y = grayColor (lum x y)) →
          ∀ y x, y < 8 → 1 ≤ x → x ≤ 8 →
            ((DifferenceHash resize img).testBit (8 * y + (x - 1)) = true
              ↔ lum (x - 1) y < lum x y)) := by
  have hbits := scan_bits (resize 9 8 img) hw hh
  refine ⟨?_, ?_, hbits, ?_, ?_, ?_⟩
  · unfold scan
    rw [hh, (scan_rows (resize 9 8 img) hw 8).1]
  · apply Nat.lt_pow_two_of_testBit
    intro k hk
    show (scan (resize 9 8 img)).hash.testBit k = false
    unfold scan
    rw [hh, (scan_rows (resize 9 8 img) hw 8).2]
    have h1 : ¬ (k < 8 * 8 ∧ k < 64) := by omega
    simp only [h1, decide_False, Bool.false_and]
  · exact hbits 0 1 (by decide) (by decide) (by decide)
  · intro s y
    exact ⟨rfl, rfl⟩
  · intro lum hlum y x hy hx1 hx8
    refine (hbits y x hy hx1 hx8).trans ?_
    unfold clrAt
    rw [(hlum (x - 1) y).2, (hlum x y).2, grayColor_r _ (hlum (x - 1) y).1,
      grayColor_r _ (hlum x y).1]
    omega

theorem clrAt_cyanRed (x y : Nat) :
    clrAt cyanRed x y = if x % 2 = 1 then 0xffff else 0 := by
  unfold clrAt cyanRed
  by_cases h : x % 2 = 1
  · simp only [h, if_true]
  · simp only [h, if_false]

theorem grayY_cyanRed (x y : Nat) :
    grayY (cyanRed.At x y) = if x % 2 = 1 then 76 else 179 := by
  unfold cyanRed
  by_cases h : x % 2 = 1
  · simp only [h, if_true]; decide
  · simp only [h, if_false]; decide

/-- C4 (evaluation at the failing input): `cyanRed` is 9 wide and 8 tall, and a
resampling that returns it as it is gives the grid `cyanRed`.  `DifferenceHash`
makes 64 comparisons and returns `0x5555555555555555`.  The grayscale
intensity falls from 179 at grid pixel `(0, 0)` to 76 at `(1, 0)`, and bit 0 is
set.  For all `0 ≤ y < 8` and `1 ≤ x ≤ 8`, bit `8*y + (x-1)` is 1 if and only
if the intensity of grid pixel `(x, y)` is strictly smaller than that of its
left neighbour, so for none of the 64 bits is it 1 if and only if the
intensity is strictly greater: the loop compares the red samples of the
resampled `img`, not the intensities. -/
theorem DifferenceHash_bits_follow_red (resize : Nat → Nat → Image → Image)
    (hR : resize 9 8 cyanRed = cyanRed) :
    (resize 9 8 cyanRed).Dx = 9 ∧ (resize 9 8 cyanRed).Dy = 8
      ∧ (scan (resize 9 8 cyanRed)).c = 64
      ∧ DifferenceHash resize cyanRed = 0x5555555555555555
      ∧ grayY ((resize 9 8 cyanRed).At 0 0) = 179
      ∧ grayY ((resize 9 8 cyanRed).At 1 0) = 76
      ∧ (DifferenceHash resize cyanRed).testBit 0 = true
      ∧ (∀ y x, y < 8 → 1 ≤ x → x ≤ 8 →
          ((DifferenceHash resize cyanRed).testBit (8 * y + (x - 1)) = true
            ↔ grayY ((resize 9 8 cyanRed).At x y)
                < grayY ((resize 9 8 cyanRed).At (x - 1) y)))
      ∧ (∀ y x, y < 8 → 1 ≤ x → x ≤ 8 →
          ¬ ((DifferenceHash resize cyanRed).testBit (8 * y + (x - 1)) = true
            ↔ grayY ((resize 9 8 cyanRed).At (x - 1) y)
                < grayY ((resize 9 8 cyanRed).At x y))) := by
  have hw : (resize 9 8 cyanRed).Dx = 9 := by rw [hR]; rfl
  have hh : (resize 9 8 cyanRed).Dy = 8 := by rw [hR]; rfl
  obtain ⟨hc, _, hbits, _, _, _⟩ := DifferenceHash_layout resize cyanRed hw hh
  have hhash : DifferenceHash resize cyanRed = 0x5555555555555555 := by
    unfold DifferenceHash
    rw [hR]
    decide
  rw [hR] at hbits
  have hsmaller : ∀ y x, y < 8 → 1 ≤ x → x ≤ 8 →
      ((DifferenceHash resize cyanRed).testBit (8 * y + (x - 1)) = true
        ↔ grayY (cyanRed.At x y) < grayY (cyanRed.At (x - 1) y)) := by
    intro y x hy hx1 hx8
    rw [hbits y x hy hx1 hx8, clrAt_cyanRed, clrAt_cyanRed, grayY_cyanRed, grayY_cyanRed]
    by_cases hodd : x % 2 = 1
    · have hprev : ¬ ((x - 1) % 2 = 1) := by omega
      simp only [hodd, hprev, if_true, if_false]
      decide
    · have hprev : (x - 1) % 2 = 1 := by omega
      simp only [hodd, hprev, if_true, if_false]
      decide
  rw [hR]
  refine ⟨rfl, rfl, ?_, hhash, ?_, ?_, ?_, hsmaller, ?_⟩
  · rw [hR] at hc; exact hc
  · rw [grayY_cyanRed]; rfl
  · rw [grayY_cyanRed]; rfl
  · rw [hhash]; decide
  · intro y x hy hx1 hx8 hiff
    have h1 := (hsmaller y x hy hx1 hx8).symm.trans hiff
    rw [grayY_cyanRed, grayY_cyanRed] at h1
    by_cases hodd : x % 2 = 1
    · have hprev : ¬ ((x - 1) % 2 = 1) := by omega
      simp only [hodd, hprev, if_true, if_false] at h1
      omega
    · have hprev : (x - 1) % 2 = 1 := by omega
      simp only [hodd, hprev, if_true, if_false] at h1
      omega

/-- Witness for C4, with the resampling that leaves every image as it is. -/
theorem DifferenceHash_bits_follow_red_witness :
    (fun (_ _ : Nat) (i : Image) => i) 9 8 cyanRed = cyanRed
      ∧ (scan cyanRed).c = 64
      ∧ DifferenceHash (fun _ _ i => i) cyanRed = 0x5555555555555555
      ∧ grayY (cyanRed.At 0 0) = 179
      ∧ grayY (cyanRed.At 1 0) = 76
      ∧ (DifferenceHash (fun _ _ i => i) cyanRed).testBit 0 = true :=
  ⟨rfl, (DifferenceHash_bits_follow_red (fun _ _ i => i) rfl).2.2.1,
    (DifferenceHash_bits_follow_red (fun _ _ i => i) rfl).2.2.2.1,
    (DifferenceHash_bits_follow_red (fun _ _ i => i) rfl).2.2.2.2.1,
    (DifferenceHash_bits_follow_red (fun _ _ i => i) rfl).2.2.2.2.2.1,
    (DifferenceHash_bits_follow_red (fun _ _ i => i) rfl).2.2.2.2.2.2.1⟩

/-- C9 (evaluation at the failing input): `blackImage` and `redStripes` have
the same size and the same grayscale intensity, 0, at every position.  With a
resampling that returns a 9 by 8 image as it is, `DifferenceHash` gives them
different signatures, `0` and `0x5555555555555555`: it compares the red
samples of the resampled `img`, not the grayscale copy `ogray`. -/
theorem DifferenceHash_reads_colour (resize : Nat → Nat → Image → Image)
    (hA : resize 9 8 blackImage = blackImage) (hB : resize 9 8 redStripes = redStripes) :
    blackImage.Dx = redStripes.Dx ∧ blackImage.Dy = redStripes.Dy
      ∧ (∀ x y, grayY (blackImage.At x y) = grayY (redStripes.At x y))
      ∧ (∀ x y, (drawGray blackImage).At x y = (drawGray redStripes).At x y)
      ∧ DifferenceHash resize blackImage = 0
      ∧ DifferenceHash resize redStripes = 0x5555555555555555 := by
  have hgray : ∀ x y, grayY (blackImage.At x y) = grayY (redStripes.At x y) := by
    intro x y
    unfold blackImage redStripes
    by_cases h : x % 2 = 1
    · simp only [h, if_true]; decide
    · simp only [h, if_false]
  refine ⟨rfl, rfl, hgray, ?_, ?_, ?_⟩
  · intro x y
    show grayColor (grayY (blackImage.At x y)) = grayColor (grayY (redStripes.At x y))
    rw [hgray]
  · unfold DifferenceHash
    rw [hA]
    decide
  · unfold DifferenceHash
    rw [hB]
    decide

/-- Witness for C9, with the resampling that leaves every image as it is. -/
theorem DifferenceHash_reads_colour_witness :
    DifferenceHash (fun _ _ i => i) blackImage = 0
      ∧ DifferenceHash (fun _ _ i => i) redStripes = 0x5555555555555555 :=
  ⟨(DifferenceHash_reads_colour (fun _ _ i => i) rfl rfl).2.2.2.2.1,
    (DifferenceHash_reads_colour (fun _ _ i => i) rfl rfl).2.2.2.2.2⟩

/-! ## The run of main -/

theorem step_take {flags : Flags} {env : Env} {s s1 : MainState}
    (h : step flags env s Action.take = some s1) :
    ∃ p ps n, s.phase = Phase.walking ∧ s.holding = none ∧ s.pending = p :: ps
      ∧ s.tokens = n + 1
      ∧ s1 = ⟨n, ps, some p, s.tasks, s.wg, s.images, s.phase, s.duplicates⟩ := by
  simp only [step] at h
  split at h
  · rename_i p ps n hph hho hpe hto
    injection h with h
    exact ⟨p, ps, n, hph, hho, hpe, hto, h.symm⟩
  · simp at h

theorem step_spawn {flags : Flags} {env : Env} {s s1 : MainState}
    (h : step flags env s Action.spawn = some s1) :
    ∃ p, s.holding = some p
      ∧ s1 = ⟨s.tokens, s.pending, none, s.tasks ++ [⟨p, TaskPc.working⟩], s.wg, s.images,
          s.phase, s.duplicates⟩ := by
  simp only [step] at h
  split at h
  · rename_i p hho
    injection h with h
    exact ⟨p, hho, h.symm⟩
  · simp at h

theorem step_work {flags : Flags} {env : Env} {s s1 : MainState} {i : Nat}
    (h : step flags env s (Action.work i) = some s1) :
    ∃ p, s.tasks[i]? = some ⟨p, TaskPc.working⟩
      ∧ s1 = ⟨s.tokens, s.pending, s.holding, s.tasks.set i ⟨p, TaskPc.appended⟩, s.wg,
          s.images ++ taskResult env p, s.phase, s.duplicates⟩ := by
  simp only [step] at h
  split at h
  · rename_i p hti
    injection h with h
    exact ⟨p, hti, h.symm⟩
  · simp at h

theorem step_done {flags : Flags} {env : Env} {s s1 : MainState} {i : Nat}
    (h : step flags env s (Action.done i) = some s1) :
    ∃ p, s.tasks[i]? = some ⟨p, TaskPc.appended⟩
      ∧ s1 = ⟨s.tokens, s.pending, s.holding, s.tasks.set i ⟨p, TaskPc.signalled⟩, s.wg - 1,
          s.images, s.phase, s.duplicates⟩ := by
  simp only [step] at h
  split at h
  · rename_i p hti
    injection h with h
    exact ⟨p, hti, h.symm⟩
  · simp at h

theorem step_send {flags : Flags} {env : Env} {s s1 : MainState} {i : Nat}
    (h : step flags env s (Action.send i) = some s1) :
    ∃ p, s.tasks[i]? = some ⟨p, TaskPc.signalled⟩ ∧ s.tokens < limit flags
      ∧ s1 = ⟨s.tokens + 1, s.pending, s.holding, s.tasks.set i ⟨p, TaskPc.ended⟩, s.wg,
          s.images, s.phase, s.duplicates⟩ := by
  simp only [step] at h
  split at h
  · rename_i p hti
    split at h
    · rename_i hlt
      injection h with h
      exact ⟨p, hti, hlt, h.symm⟩
    · simp at h
  · simp at h

theorem step_endWalk {flags : Flags} {env : Env} {s s1 : MainState}
    (h : step flags env s Action.endWalk = some s1) :
    s.phase = Phase.walking ∧ s.holding = none ∧ s.pending = []
      ∧ s1 = ⟨s.tokens, s.pending, s.holding, s.tasks, s.wg, s.images, Phase.waiting,
          s.duplicates⟩ := by
  simp only [step] at h
  split at h
  · rename_i hph hho hpe
    injection h with h
    exact ⟨hph, hho, hpe, h.symm⟩
  · simp at h

theorem step_wait {flags : Flags} {env : Env} {s s1 : MainState}
    (h : step flags env s Action.wait = some s1) :
    s.phase = Phase.waiting ∧ s.wg = 0
      ∧ s1 = ⟨s.tokens, s.pending, s.holding, s.tasks, s.wg, s.images, Phase.matched,
          matchLoop flags.Similarity s.images⟩ := by
  simp only [step] at h
  split at h
  · rename_i hph
    split at h
    · rename_i hwg
      injection h with h
      exact ⟨hph, hwg, h.symm⟩
    · simp at h
  · simp at h

theorem countP_set_add {α : Type} (q : α → Bool) (l : List α) (i : Nat) (t0 t1 : α)
    (h : l[i]? = some t0) :
    (l.set i t1).countP q + (if q t0 = true then 1 else 0)
      = l.countP q + (if q t1 = true then 1 else 0) := by
  induction l generalizing i with
  | nil => simp at h
  | cons x xs ih =>
    cases i with
    | zero =>
      have hx : x = t0 := by simpa using h
      subst hx
      simp only [List.set_cons_zero, List.countP_cons]
      omega
    | succ k =>
      have hk : xs[k]? = some t0 := by simpa using h
      have := ih k hk
      simp only [List.set_cons_succ, List.countP_cons]
      omega

theorem map_path_set (l : List Task) (i : Nat) (p : String) (pc0 pc1 : TaskPc)
    (h : l[i]? = some ⟨p, pc0⟩) :
    (l.set i ⟨p, pc1⟩).map Task.path = l.map Task.path := by
  induction l generalizing i with
  | nil => simp at h
  | cons x xs ih =>
    cases i with
    | zero =>
      have hx : x = ⟨p, pc0⟩ := by simpa using h
      subst hx
      simp
    | succ k =>
      have hk : xs[k]? = some ⟨p, pc0⟩ := by simpa using h
      simp [ih k hk]

theorem Inv_startup (flags : Flags) (paths : List String) (s0 : MainState)
    (h : startup flags paths = some s0) : Inv flags paths s0 := by
  unfold startup at h
  split at h
  · simp at h
  · injection h with h
    subst h
    constructor
    · simp [tokensOut, inFlight, limit]
    · simp [notSignalled]
    · intro hne; exact absurd rfl hne
    · intro hm; cases hm
    · simp
    · intro hm; cases hm

theorem mem_of_getElem?_eq_some {α : Type} (l : List α) (i : Nat) (a : α)
    (h : l[i]? = some a) : a ∈ l := by
  obtain ⟨hi, ha⟩ := List.getElem?_eq_some.mp h
  rw [← ha]
  exact List.getElem_mem hi

theorem Inv_step (flags : Flags) (env : Env) (paths : List String) (s s1 : MainState)
    (a : Action) (hI : Inv flags paths s) (h : step flags env s a = some s1) :
    Inv flags paths s1 := by
  obtain ⟨htok, hwg, hwalked, hwaited, hfiles, hmatched⟩ := hI
  unfold tokensOut inFlight at htok
  unfold notSignalled at hwg
  cases a with
  | take =>
    obtain ⟨p, ps, n, hph, hho, hpe, hto, rfl⟩ := step_take h
    rw [hho, hpe] at hwg hfiles
    rw [hho] at htok
    simp only [Option.toList_none, List.length_nil] at htok
    simp only [Option.toList_none, List.length_nil, List.length_cons] at hwg
    constructor
    · unfold tokensOut inFlight
      simp only [Option.toList_some, List.length_singleton]
      omega
    · unfold notSignalled
      simp only [Option.toList_some, List.length_singleton]
      rw [hwg]
    · intro hne; exact absurd hph hne
    · intro hm; rw [hph] at hm; cases hm
    · simpa using hfiles
    · intro hm; rw [hph] at hm; cases hm
  | spawn =>
    obtain ⟨p, hho, rfl⟩ := step_spawn h
    rw [hho] at htok hwg hfiles
    simp only [Option.toList_some, List.length_singleton] at htok hwg
    have hph : s.phase = Phase.walking := by
      by_contra hne
      have := (hwalked hne).2
      rw [hho] at this
      cases this
    have e1 : Task.holdsToken ⟨p, TaskPc.working⟩ = true := rfl
    have e2 : Task.beforeDone ⟨p, TaskPc.working⟩ = true := rfl
    constructor
    · unfold tokensOut inFlight
      simp only [Option.toList_none, List.length_nil, List.countP_append,
        List.countP_cons_of_pos _ _ e1, List.countP_nil]
      omega
    · unfold notSignalled
      simp only [Option.toList_none, List.length_nil, List.countP_append,
        List.countP_cons_of_pos _ _ e2, List.countP_nil]
      rw [hwg]; congr 1; omega
    · intro hne; exact absurd hph hne
    · intro hm; rw [hph] at hm; cases hm
    · simpa using hfiles
    · intro hm; rw [hph] at hm; cases hm
  | work i =>
    obtain ⟨p, hti, rfl⟩ := step_work h
    have c1 := countP_set_add Task.holdsToken s.tasks i
      ⟨p, TaskPc.working⟩ ⟨p, TaskPc.appended⟩ hti
    have c2 := countP_set_add Task.beforeDone s.tasks i
      ⟨p, TaskPc.working⟩ ⟨p, TaskPc.appended⟩ hti
    have e1 : Task.holdsToken ⟨p, TaskPc.working⟩ = true := rfl
    have e2 : Task.holdsToken ⟨p, TaskPc.appended⟩ = true := rfl
    have e3 : Task.beforeDone ⟨p, TaskPc.working⟩ = true := rfl
    have e4 : Task.beforeDone ⟨p, TaskPc.appended⟩ = true := rfl
    rw [if_pos e1, if_pos e2] at c1
    rw [if_pos e3, if_pos e4] at c2
    have hpos : 0 < s.tasks.countP Task.beforeDone := by
      rw [List.countP_pos_iff]
      exact ⟨⟨p, TaskPc.working⟩, mem_of_getElem?_eq_some _ _ _ hti, e3⟩
    have hnm : s.phase ≠ Phase.matched := by
      intro hm
      have h0 := hwaited hm
      rw [hwg] at h0
      omega
    constructor
    · unfold tokensOut inFlight
      simp only
      omega
    · unfold notSignalled
      simp only
      rw [hwg]; congr 1; omega
    · exact hwalked
    · exact hwaited
    · simp only
      rw [map_path_set s.tasks i p _ _ hti]; exact hfiles
    · intro hm; exact absurd hm hnm
  | done i =>
    obtain ⟨p, hti, rfl⟩ := step_done h
    have c1 := countP_set_add Task.holdsToken s.tasks i
      ⟨p, TaskPc.appended⟩ ⟨p, TaskPc.signalled⟩ hti
    have c2 := countP_set_add Task.beforeDone s.tasks i
      ⟨p, TaskPc.appended⟩ ⟨p, TaskPc.signalled⟩ hti
    have e1 : Task.holdsToken ⟨p, TaskPc.appended⟩ = true := rfl
    have e2 : Task.holdsToken ⟨p, TaskPc.signalled⟩ = true := rfl
    have e3 : Task.beforeDone ⟨p, TaskPc.appended⟩ = true := rfl
    have e4 : ¬ (Task.beforeDone ⟨p, TaskPc.signalled⟩ = true) := Bool.false_ne_true
    rw [if_pos e1, if_pos e2] at c1
    rw [if_pos e3, if_neg e4] at c2
    have hnm : s.phase ≠ Phase.matched := by
      intro hm
      have h0 := hwaited hm
      rw [hwg] at h0
      omega
    constructor
    · unfold tokensOut inFlight
      simp only
      omega
    · unfold notSignalled
      simp only
      rw [hwg]
      omega
    · exact hwalked
    · intro hm; exact absurd hm hnm
    · simp only
      rw [map_path_set s.tasks i p _ _ hti]; exact hfiles
    · intro hm; exact absurd hm hnm
  | send i =>
    obtain ⟨p, hti, hlt, rfl⟩ := step_send h
    have c1 := countP_set_add Task.holdsToken s.tasks i
      ⟨p, TaskPc.signalled⟩ ⟨p, TaskPc.ended⟩ hti
    have c2 := countP_set_add Task.beforeDone s.tasks i
      ⟨p, TaskPc.signalled⟩ ⟨p, TaskPc.ended⟩ hti
    have e1 : Task.holdsToken ⟨p, TaskPc.signalled⟩ = true := rfl
    have e2 : ¬ (Task.holdsToken ⟨p, TaskPc.ended⟩ = true) := Bool.false_ne_true
    have e3 : ¬ (Task.beforeDone ⟨p, TaskPc.signalled⟩ = true) := Bool.false_ne_true
    have e4 : ¬ (Task.beforeDone ⟨p, TaskPc.ended⟩ = true) := Bool.false_ne_true
    rw [if_pos e1, if_neg e2] at c1
    rw [if_neg e3, if_neg e4] at c2
    constructor
    · unfold tokensOut inFlight
      simp only
      omega
    · unfold notSignalled
      simp only
      rw [hwg]; congr 1; omega
    · exact hwalked
    · exact hwaited
    · simp only
      rw [map_path_set s.tasks i p _ _ hti]; exact hfiles
    · exact hmatched
  | endWalk =>
    obtain ⟨hph, hho, hpe, rfl⟩ := step_endWalk h
    constructor
    · exact htok
    · exact hwg
    · intro _; exact ⟨hpe, hho⟩
    · intro hm; cases hm
    · exact hfiles
    · intro hm; cases hm
  | wait =>
    obtain ⟨hph, hwg0, rfl⟩ := step_wait h
    constructor
    · exact htok
    · exact hwg
    · intro _; exact hwalked (by rw [hph]; decide)
    · intro _; exact hwg0
    · exact hfiles
    · intro _; rfl

theorem Inv_exec (flags : Flags) (env : Env) (paths : List String) (schedule : List Action) :
    ∀ (s s1 : MainState), Inv flags paths s → exec flags env schedule s = some s1 →
      Inv flags paths s1 := by
  induction schedule with
  | nil =>
    intro s s1 hI h
    simp only [exec] at h
    injection h with h
    rw [← h]; exact hI
  | cons a rest ih =>
    intro s s1 hI h
    simp only [exec] at h
    split at h
    · rename_i s2 hs2
      exact ih s2 s1 (Inv_step flags env paths s s2 a hI hs2) h
    · simp at h

theorem exec_append (flags : Flags) (env : Env) (xs ys : List Action) (s : MainState) :
    exec flags env (xs ++ ys) s = (exec flags env xs s).bind (exec flags env ys) := by
  induction xs generalizing s with
  | nil => rfl
  | cons a rest ih =>
    simp only [List.cons_append, exec]
    cases step flags env s a with
    | none => rfl
    | some s1 => exact ih s1

/-- One file under the sequential schedule: its goroutine is started with a
token and runs to its end. -/
theorem exec_one_file (flags : Flags) (env : Env) (s : MainState) (p : String)
    (ps : List String) (n : Nat) (hph : s.phase = Phase.walking) (hho : s.holding = none)
    (hpe : s.pending = p :: ps) (hto : s.tokens = n + 1) (hle : s.tokens ≤ limit flags) :
    exec flags env
        [Action.take, Action.spawn, Action.work s.tasks.length, Action.done s.tasks.length,
          Action.send s.tasks.length] s
      = some ⟨n + 1, ps, none, s.tasks ++ [⟨p, TaskPc.ended⟩], s.wg - 1,
          s.images ++ taskResult env p, Phase.walking, s.duplicates⟩ := by
  obtain ⟨tokens, pending, holding, tasks, wg, images, phase, duplicates⟩ := s
  simp only at hph hho hpe hto hle
  subst hph hho hpe hto
  have hlt : n < flags.NumThreads.toNat := by
    unfold limit at hle; omega
  simp [exec, step, hlt]

theorem exec_sequential (flags : Flags) (env : Env) (ps : List String) :
    ∀ s : MainState, s.phase = Phase.walking → s.holding = none → s.pending = ps →
      (ps ≠ [] → 1 ≤ s.tokens) → s.tokens ≤ limit flags → s.wg = (ps.length : Int) →
      ∃ s1, exec flags env (sequentialSchedule s.tasks.length ps) s = some s1
        ∧ s1.phase = Phase.matched := by
  induction ps with
  | nil =>
    intro s hph hho hpe _ _ hwg
    obtain ⟨tokens, pending, holding, tasks, wg, images, phase, duplicates⟩ := s
    simp only at hph hho hpe hwg
    subst hph hho hpe hwg
    refine ⟨⟨tokens, [], none, tasks, 0, images, Phase.matched,
      matchLoop flags.Similarity images⟩, ?_, rfl⟩
    simp [sequentialSchedule, exec, step]
  | cons p ps ih =>
    intro s hph hho hpe htok hle hwg
    have h1 : 1 ≤ s.tokens := htok (by simp)
    obtain ⟨n, hn⟩ : ∃ n, s.tokens = n + 1 := ⟨s.tokens - 1, by omega⟩
    have hone := exec_one_file flags env s p ps n hph hho hpe hn hle
    unfold sequentialSchedule
    rw [exec_append, hone]
    simp only [Option.bind_eq_bind, Option.some_bind]
    have := ih ⟨n + 1, ps, none, s.tasks ++ [⟨p, TaskPc.ended⟩], s.wg - 1,
      s.images ++ taskResult env p, Phase.walking, s.duplicates⟩ rfl rfl rfl
      (fun _ => by simp) (by simp only; omega)
      (by simp only; rw [hwg]; push_cast [List.length_cons]; ring)
    simpa using this

theorem matchLoop_negative (t : Int) (ht : t < 0) (images : List ImageHash) :
    matchLoop t images = [] := by
  have hp : pairsOf (matchLoop t images) = [] := by
    apply List.eq_nil_iff_forall_not_mem.mpr
    intro e he
    obtain ⟨a, b, ha, hb, _, _, hle⟩ := mem_pairs_matchLoop t images e he
    have : (0 : Int) ≤ (HammingDistance images[a].Hash images[b].Hash : Int) :=
      Int.ofNat_nonneg _
    omega
  rw [matchLoop_eq_flat, ← pairsOf_matchLoop, hp]
  rfl

theorem matched_tasks (flags : Flags) (paths : List String) (s : MainState)
    (hI : Inv flags paths s) (hm : s.phase = Phase.matched) :
    (∀ t ∈ s.tasks, t.pc = TaskPc.signalled ∨ t.pc = TaskPc.ended)
      ∧ s.tasks.map Task.path = paths := by
  have hwg := hI.wg_eq
  rw [hI.waited hm] at hwg
  obtain ⟨hpe, hho⟩ := hI.walked (by rw [hm]; decide)
  have hfiles := hI.files_eq
  rw [hpe, hho] at hfiles
  constructor
  · have h0 : notSignalled s = 0 := by omega
    unfold notSignalled at h0
    rw [List.countP_eq_zero] at h0
    intro t ht
    have hb := h0 t ht
    unfold Task.beforeDone at hb
    cases hpc : t.pc <;> simp [hpc] at hb ⊢
  · simpa using hfiles

/-- C8 (counterexample): with `-similarity -1` and 8 threads the run over the
files `/a` and `/b` is not rejected: it starts, fingerprints both files and
runs the matching loop, which yields the empty duplicate list.  With
`-threads 0` and no files the run is not rejected either and also ends with
the empty duplicate list. -/
theorem nonpositive_flags_not_rejected :
    ((startup negativeSimilarity ["/a", "/b"]).bind
          (exec negativeSimilarity blackEnv (sequentialSchedule 0 ["/a", "/b"]))).map
          (fun s => (s.phase, s.images, s.duplicates))
        = some (Phase.matched, [⟨"/a", 0⟩, ⟨"/b", 0⟩], [])
      ∧ ((startup zeroThreads []).bind
          (exec zeroThreads blackEnv (sequentialSchedule 0 []))).map
          (fun s => (s.phase, s.images, s.duplicates))
        = some (Phase.matched, [], []) := by
  constructor <;> decide

/-- C8 (amended): no flag value is rejected by a check.  (1) With
`-threads < 0` the run ends at startup, where the token channel is made,
before any file is counted.  (2) With `-threads ≥ 0` the run starts, whatever
`-similarity` is: the channel holds `-threads` tokens and the files are
counted.  (3) With `-threads = 0` and at least one file no statement can run
after that: main blocks at the first `<-tokens`.  (4) With `-threads > 0`, or
with no file, the sequential schedule takes the run to the end of the matching
loop.  (5) With `-similarity < 0`, whenever the matching loop has run, every
file of the walk has had its goroutine and the duplicate list is empty.
(6) With `-threads ≥ 0` and no file, the run ends with empty `images` and an
empty duplicate list. -/
theorem no_flag_validation (flags : Flags) (env : Env) (paths : List String) :
    (flags.NumThreads < 0 → startup flags paths = none)
      ∧ (0 ≤ flags.NumThreads →
          startup flags paths
            = some ⟨limit flags, paths, none, [], paths.length, [], Phase.walking, []⟩)
      ∧ (flags.NumThreads = 0 → paths ≠ [] → ∀ a,
          step flags env ⟨0, paths, none, [], paths.length, [], Phase.walking, []⟩ a = none)
      ∧ (0 ≤ flags.NumThreads → (paths ≠ [] → 0 < flags.NumThreads) →
          ((startup flags paths).bind
              (exec flags env (sequentialSchedule 0 paths))).map (fun s => s.phase)
            = some Phase.matched)
      ∧ (flags.Similarity < 0 → ∀ (schedule : List Action) (s0 s : MainState),
          startup flags paths = some s0 → exec flags env schedule s0 = some s →
          s.phase = Phase.matched →
            s.tasks.map Task.path = paths ∧ s.duplicates = [])
      ∧ (0 ≤ flags.NumThreads → paths = [] →
          ((startup flags paths).bind
              (exec flags env (sequentialSchedule 0 paths))).map
              (fun s => (s.phase, s.images, s.duplicates))
            = some (Phase.matched, [], [])) := by
  have hstart : 0 ≤ flags.NumThreads →
      startup flags paths
        = some ⟨limit flags, paths, none, [], paths.length, [], Phase.walking, []⟩ := by
    intro h
    unfold startup limit
    rw [if_neg (by omega)]
  refine ⟨?_, hstart, ?_, ?_, ?_, ?_⟩
  · intro h
    unfold startup
    rw [if_pos h]
  · intro _ hne a
    obtain ⟨p, ps, rfl⟩ : ∃ p ps, paths = p :: ps := by
      cases paths with
      | nil => exact absurd rfl hne
      | cons p ps => exact ⟨p, ps, rfl⟩
    cases a <;> simp [step]
  · intro h0 hpos
    rw [hstart h0]
    have hlim : paths ≠ [] → 1 ≤ limit flags := by
      intro hne
      have := hpos hne
      unfold limit
      omega
    obtain ⟨s1, hs1, hm⟩ := exec_sequential flags env paths
      ⟨limit flags, paths, none, [], paths.length, [], Phase.walking, []⟩ rfl rfl rfl
      hlim (le_refl _) rfl
    have hs2 : exec flags env (sequentialSchedule 0 paths)
        ⟨limit flags, paths, none, [], paths.length, [], Phase.walking, []⟩ = some s1 := hs1
    simp only [Option.bind_eq_bind, Option.some_bind, hs2, Option.map_some', hm]
  · intro hneg schedule s0 s h0 hs hm
    have hI : Inv flags paths s :=
      Inv_exec flags env paths schedule s0 s (Inv_startup flags paths s0 h0) hs
    refine ⟨(matched_tasks flags paths s hI hm).2, ?_⟩
    rw [hI.matched_eq hm]
    exact matchLoop_negative flags.Similarity hneg s.images
  · intro h0 hnil
    rw [hstart h0, hnil]
    rfl

/-- Witness for C8: thread count `-1`; thread count `0` with the file `/a`;
eight threads with threshold `-1` and the files `/a` and `/b`; thread count
`0` with no file. -/
theorem no_flag_validation_witness :
    startup negativeThreads ["/a"] = none
      ∧ step zeroThreads blackEnv ⟨0, ["/a"], none, [], 1, [], Phase.walking, []⟩ Action.take
        = none
      ∧ ((startup negativeSimilarity ["/a", "/b"]).bind
            (exec negativeSimilarity blackEnv (sequentialSchedule 0 ["/a", "/b"]))).map
            (fun s => s.phase)
          = some Phase.matched
      ∧ (([⟨"/a", TaskPc.ended⟩] : List Task).map Task.path = ["/a"]
          ∧ ([] : List ImageHash) = [])
      ∧ ((startup zeroThreads []).bind
            (exec zeroThreads blackEnv (sequentialSchedule 0 []))).map
            (fun s => (s.phase, s.images, s.duplicates))
          = some (Phase.matched, [], []) :=
  ⟨(no_flag_validation negativeThreads blackEnv ["/a"]).1 (by decide),
    (no_flag_validation zeroThreads blackEnv ["/a"]).2.2.1 rfl (by decide) Action.take,
    (no_flag_validation negativeSimilarity blackEnv ["/a", "/b"]).2.2.2.1 (by decide)
      (fun _ => by decide),
    (no_flag_validation negativeSimilarity blackEnv ["/a"]).2.2.2.2.1 (by decide)
      (sequentialSchedule 0 ["/a"])
      ⟨8, ["/a"], none, [], 1, [], Phase.walking, []⟩
      ⟨8, [], none, [⟨"/a", TaskPc.ended⟩], 0, [⟨"/a", 0⟩], Phase.matched, []⟩
      (by decide) (by decide) rfl,
    (no_flag_validation zeroThreads blackEnv []).2.2.2.2.2 (by decide) rfl⟩

end FindDuplicates
